import Mathlib

/-!
# A shallow embedding of govarnam's `dictionary.go`

This development embeds the suggestion-search core of the govarnam
transliteration engine (file `govarnam/dictionary.go`) and proves the
specification's claims about it.

Modelling conventions:

* Go strings are modelled as `List Char`.
* The SQLite store behind `varnam.dictConn` is modelled as two in-memory
  relations, `words` and `patterns_content`, mirroring the schema created by
  `makeDictionary`.  The `words.id` primary key is an explicit field.
* SQL `LIKE` is modelled by `sqlLike`, implementing the wildcards `%`
  (any sequence, possibly empty) and `_` (exactly one character).
  Character comparison is literal: the engine's word domain is Indic
  script text, outside the ASCII range where SQLite's default folding acts.
* `ORDER BY c DESC LIMIT n` is modelled as a stable insertion sort on the
  key (ties keep store order, which SQLite leaves unspecified) followed by
  `List.take n`.
* Go panics (out-of-range slice indexing) are modelled by `Option`:
  a function returns `none` exactly when the Go original panics.
* Integer columns read into Go `int` fields are modelled as `Int` where the
  code uses negative sentinels (`Suggestion.Weight`), and as `Nat` for the
  stored `confidence` and `learned_on` columns (the schema initialises
  `confidence` to 1 and the writers only increment it).
-/

namespace Govarnam

/-! ## Data model -/

/-- One possibility of a token: a literal script string (`Symbol.value1`
in the Go sources; only the `value1` field is read by `dictionary.go`). -/
structure Symbol where
  value1 : List Char
deriving DecidableEq

/-- The token types of `dictionary.go`: `VARNAM_TOKEN_CHAR` (pass-through
literals) and `VARNAM_TOKEN_SYMBOL` (phonetic units with possibilities). -/
inductive TokenType where
  | VARNAM_TOKEN_CHAR
  | VARNAM_TOKEN_SYMBOL
deriving DecidableEq

/-- One position of the tokenized input. -/
structure Token where
  tokenType : TokenType
  token : List Symbol
  position : Nat
deriving DecidableEq

/-- A candidate output word (`Suggestion` in the Go sources).  `Weight` is
`Int` because `getFromDictionary` uses `-1` as a dead-branch sentinel. -/
structure Suggestion where
  Word : List Char
  Weight : Int
  LearnedOn : Int
deriving DecidableEq

/-- Result of the token-tree matcher (`DictionaryResult`). -/
structure DictionaryResult where
  sugs : List Suggestion
  exactMatch : Bool
  longestMatchPosition : Nat
deriving DecidableEq

/-- A suggestion annotated with the producing pattern's character length. -/
structure PatternDictionarySuggestion where
  Sug : Suggestion
  Length : Nat
deriving DecidableEq

/-- A row of the `words` relation:
`words (id integer primary key, word text unique, confidence integer default 1, learned_on integer)`. -/
structure WordRow where
  id : Nat
  word : List Char
  confidence : Nat
  learned_on : Nat
deriving DecidableEq

/-- A row of the `patterns_content` relation:
`patterns_content (pattern text, word_id integer, learned integer default 0)`. -/
structure PatternRow where
  pattern : List Char
  word_id : Nat
  learned : Nat
deriving DecidableEq

/-- The dictionary connection: the two relations of the store. -/
structure Varnam where
  words : List WordRow
  patterns : List PatternRow
deriving DecidableEq

/-- Modelled from the spec: the fixed minimum learnt-word confidence floor
(`VARNAM_LEARNT_WORD_MIN_CONFIDENCE`); its defining file is not among the
provided sources.  The claims depend only on it being a fixed natural
number, not on the particular value. -/
def VARNAM_LEARNT_WORD_MIN_CONFIDENCE : Nat := 30

/-! ## SQL LIKE -/

/-- All suffixes of a character list, longest first (ending with `[]`). -/
def suffixesOf : List Char → List (List Char)
  | [] => [[]]
  | c :: t => (c :: t) :: suffixesOf t

/-- SQL `LIKE`: `pat` is the pattern (`%` matches any sequence including
the empty one, `_` matches exactly one character, anything else matches
itself), `s` the candidate string. -/
def sqlLike (pat s : List Char) : Bool :=
  match pat with
  | [] => s.isEmpty
  | p :: ps =>
    if p = '%' then (suffixesOf s).any fun t => sqlLike ps t
    else
      match s with
      | [] => false
      | c :: s' => (p == '_' || p == c) && sqlLike ps s'

/-- A "plain" string: no LIKE metacharacters.  The spec's dictionary
contract takes literal candidate strings; this predicate expresses that. -/
def plainStr (w : List Char) : Bool :=
  w.all fun c => !(c == '%') && !(c == '_')

/-! ## ORDER BY ... DESC LIMIT ... -/

/-- Insert `x` into a list already sorted by `key` descending, keeping
earlier elements first among equal keys. -/
def insertDescBy {α : Type} (key : α → Nat) (x : α) : List α → List α
  | [] => [x]
  | y :: ys => if key y < key x then x :: y :: ys else y :: insertDescBy key x ys

/-- Stable sort by `key` descending: the model of `ORDER BY key DESC`
(SQLite leaves the order of equal keys unspecified; the model fixes
store order). -/
def sortDescBy {α : Type} (key : α → Nat) : List α → List α
  | [] => []
  | x :: xs => insertDescBy key x (sortDescBy key xs)

/-! ## searchDictionary -/

/-- The `WHERE` clause built by `searchDictionary`.  For `all = true` the
query string is `word LIKE ?₀ OR word LIKE ?₁ ... OR word LIKE ?ₙ AND
learned_on > 0`, each bind being a candidate with `_%` appended; SQL `AND`
binds tighter than `OR`, so `learned_on > 0` belongs only to the final
disjunct.  For `all = false` the binds are the bare candidates and there
is no `learned_on` conjunct. -/
def searchWhere (all : Bool) (words : List (List Char)) (row : WordRow) : Bool :=
  if all then
    (words.dropLast.any fun w => sqlLike (w ++ ['_', '%']) row.word) ||
      (match words.getLast? with
       | some w => sqlLike (w ++ ['_', '%']) row.word && decide (0 < row.learned_on)
       | none => false)
  else
    words.any fun w => sqlLike w row.word

/-- `rows.Scan(&item.Word, &item.Weight, &item.LearnedOn)` on a `words` row. -/
def rowToSuggestion (r : WordRow) : Suggestion :=
  ⟨r.word, (r.confidence : Int), (r.learned_on : Int)⟩

/-- `searchDictionary(words, all)`: the Go function reads `words[0]`
unconditionally (a panic — `none` — on the empty list), then selects the
matching rows, ordered by confidence descending, capped at 5. -/
def searchDictionary (v : Varnam) (words : List (List Char)) (all : Bool) :
    Option (List Suggestion) :=
  match words with
  | [] => none
  | _ :: _ =>
    some ((((sortDescBy (fun r => r.confidence)
        (v.words.filter fun row => searchWhere all words row)).take 5).map
          rowToSuggestion))

/-! ## Pattern dictionary reads -/

/-- `getTrailingFromPatternDictionary(pattern)`:
`SELECT word, confidence FROM words WHERE id IN (SELECT word_id FROM
patterns_content WHERE pattern LIKE ?) ORDER BY confidence DESC LIMIT 10`
with bind `pattern + "%"`; the scanned weight is then incremented by
`VARNAM_LEARNT_WORD_MIN_CONFIDENCE` (`LearnedOn` is left at its zero
value). -/
def getTrailingFromPatternDictionary (v : Varnam) (pattern : List Char) :
    List Suggestion :=
  ((sortDescBy (fun r => r.confidence)
      (v.words.filter fun w =>
        v.patterns.any fun pr =>
          (pr.word_id == w.id) && sqlLike (pattern ++ ['%']) pr.pattern)).take 10).map
    fun w => ⟨w.word, (w.confidence : Int) + (VARNAM_LEARNT_WORD_MIN_CONFIDENCE : Int), 0⟩

/-- The scalar subqueries `(SELECT wd.word FROM words wd WHERE wd.id =
pts.word_id)` and its `confidence` sibling: the first `words` row with the
given id, if any. -/
def wordById (v : Varnam) (wid : Nat) : Option WordRow :=
  v.words.find? fun w => w.id == wid

/-- `getFromPatternDictionary(pattern)`:
one output row per matching `patterns_content` row, where the row matches
when `? LIKE (pts.pattern || '%') OR pattern LIKE ?` with binds
`(pattern, pattern + "%")`; ordered by `LENGTH(pts.pattern)` descending,
capped at 10.  A dangling `word_id` would make the scalar subqueries yield
NULL and leave the scanned fields at their zero values, which the model
renders with `Option.getD`. -/
def getFromPatternDictionary (v : Varnam) (pattern : List Char) :
    List PatternDictionarySuggestion :=
  ((sortDescBy (fun pr => pr.pattern.length)
      (v.patterns.filter fun pr =>
        sqlLike (pr.pattern ++ ['%']) pattern || sqlLike (pattern ++ ['%']) pr.pattern)).take 10).map
    fun pr =>
      { Length := pr.pattern.length
        Sug := ⟨((wordById v pr.word_id).map fun w => w.word).getD [],
                (((wordById v pr.word_id).map fun w => (w.confidence : Int)).getD 0) +
                  (VARNAM_LEARNT_WORD_MIN_CONFIDENCE : Int),
                0⟩ }

/-! ## getFromDictionary: the incremental token-tree matcher -/

/-- The loop state of `getFromDictionary`: the in-flight candidate list
`results`, the recorded longest-match position and its found set. -/
structure MatchState where
  results : List Suggestion
  foundPosition : Nat
  foundDictWords : List Suggestion
deriving DecidableEq

/-- The matcher's exact lookup `varnam.searchDictionary([]string{word},
false)`: a singleton candidate list, so the Go call never panics. -/
def searchExact (v : Varnam) (word : List Char) : List Suggestion :=
  (searchDictionary v [word] false).getD []

/-- The inner `k`-loop over the possibilities with index `k ≥ 1`: each
possibility extends the pre-extension string `till`; a hit contributes its
top search result to this position's found words and appends a brand-new
in-flight suggestion `{newTill, 0, 0}`.  Returns (appended in-flight
suggestions, found words), in loop order. -/
def siblingSearch (v : Varnam) (till : List Char) :
    List Symbol → List Suggestion × List Suggestion
  | [] => ([], [])
  | possibility :: rest =>
    let newTill := till ++ possibility.value1
    let prev := siblingSearch v till rest
    match searchExact v newTill with
    | s0 :: _ => (Suggestion.mk newTill 0 0 :: prev.1, s0 :: prev.2)
    | [] => prev

/-- The body of the `j`-loop for one live in-flight entry at a `SYMBOL`
token with index `i > 0` and possibility list `ft :: others`: the entry's
word is extended in place by the first possibility `ft` and looked up —
a hit contributes the top result to the found words, a miss sets the
sentinel weight `-1`; then the remaining possibilities extend the
pre-extension word `result.Word`.  Returns (updated entry, appended
entries, found words contributed). -/
def extendOne (v : Varnam) (ft : Symbol) (others : List Symbol) (result : Suggestion) :
    Suggestion × List Suggestion × List Suggestion :=
  match searchExact v (result.Word ++ ft.value1) with
  | s0 :: _ =>
    ({ result with Word := result.Word ++ ft.value1 },
      (siblingSearch v result.Word others).1,
      s0 :: (siblingSearch v result.Word others).2)
  | [] =>
    ({ result with Word := result.Word ++ ft.value1, Weight := -1 },
      (siblingSearch v result.Word others).1,
      (siblingSearch v result.Word others).2)

/-- The `j`-loop of `getFromDictionary` over the in-flight list at a
`SYMBOL` token with index `i > 0`.  Dead entries (`Weight = -1`) are
skipped unchanged.  A live entry reads `t.token[0]` (a panic — `none` —
when the token has no possibilities) and is processed by `extendOne`.
Returns (updated in-flight entries, appended entries, found words),
with the appended entries and found words in loop order. -/
def extendResults (v : Varnam) (toks : List Symbol) :
    List Suggestion → Option (List Suggestion × List Suggestion × List Suggestion)
  | [] => some ([], [], [])
  | result :: rest =>
    if result.Weight = -1 then
      match extendResults v toks rest with
      | none => none
      | some (u, a, f) => some (result :: u, a, f)
    else
      match toks with
      | [] => none
      | ft :: others =>
        match extendResults v toks rest with
        | none => none
        | some (u, a, f) =>
          let one := extendOne v ft others result
          some (one.1 :: u, one.2.1 ++ a, one.2.2 ++ f)

/-- The commit at the end of the loop body: `if i > 0 &&
len(tempFoundDictWords) > 0` the found set and position are replaced. -/
def commit (i : Nat) (t : Token) (st : MatchState) (tempFound : List Suggestion) :
    MatchState :=
  if 0 < i ∧ tempFound ≠ [] then
    { st with foundDictWords := tempFound, foundPosition := t.position }
  else st

/-- One iteration of `for i, t := range tokens`. -/
def step (v : Varnam) (i : Nat) (t : Token) (st : MatchState) : Option MatchState :=
  if t.tokenType = TokenType.VARNAM_TOKEN_SYMBOL then
    if i = 0 then
      let seeds := t.token.map fun possibility => Suggestion.mk possibility.value1 0 0
      some (commit i t { st with results := st.results ++ seeds } seeds)
    else
      match extendResults v t.token st.results with
      | none => none
      | some (u, a, tempFound) =>
        some (commit i t { st with results := u ++ a } tempFound)
  else
    some (commit i t st [])

/-- The whole loop, from index `i`. -/
def runTokens (v : Varnam) : Nat → MatchState → List Token → Option MatchState
  | _, st, [] => some st
  | i, st, t :: rest =>
    match step v i t st with
    | none => none
    | some st' => runTokens v (i + 1) st' rest

/-- `getFromDictionary(tokens)`: run the loop from the empty state, then
build the result; `tokens[len(tokens)-1]` is read unconditionally, a panic
(`none`) on the empty list. -/
def getFromDictionary (v : Varnam) (tokens : List Token) : Option DictionaryResult :=
  match tokens.getLast? with
  | none => none
  | some lastToken =>
    match runTokens v 0 ⟨[], 0, []⟩ tokens with
    | none => none
    | some st =>
      some ⟨st.foundDictWords, st.foundPosition == lastToken.position, st.foundPosition⟩

/-! ## Concrete fixtures used by witnesses and counterexamples -/

/-- A store holding the single learnt word "ab". -/
def vLearntAB : Varnam := ⟨[⟨1, ['a', 'b'], 1, 5⟩], []⟩

/-- A store holding the single trained-only word "ab" (`learned_on = 0`). -/
def vTrainedAB : Varnam := ⟨[⟨1, ['a', 'b'], 1, 0⟩], []⟩

/-- A store with one word reachable through the single pattern "in". -/
def vPatIN : Varnam := ⟨[⟨1, ['X'], 2, 7⟩], [⟨['i', 'n'], 1, 1⟩]⟩

/-- A `SYMBOL` token. -/
def symTok (poss : List Symbol) (pos : Nat) : Token :=
  ⟨TokenType.VARNAM_TOKEN_SYMBOL, poss, pos⟩

/-- A pass-through `CHAR` token. -/
def charTok (pos : Nat) : Token :=
  ⟨TokenType.VARNAM_TOKEN_CHAR, [], pos⟩

/-! ## Lemmas on the LIKE model -/

theorem suffixesOf_ne_nil (s : List Char) : suffixesOf s ≠ [] := by
  cases s <;> simp [suffixesOf]

theorem nil_mem_suffixesOf (s : List Char) : [] ∈ suffixesOf s := by
  induction s with
  | nil => simp [suffixesOf]
  | cons c t ih => simp [suffixesOf, ih]

theorem mem_suffixesOf_iff {s t : List Char} :
    t ∈ suffixesOf s ↔ ∃ u, s = u ++ t := by
  induction s with
  | nil => simp [suffixesOf, eq_comm]
  | cons c s ih =>
    simp only [suffixesOf, List.mem_cons, ih]
    constructor
    · rintro (rfl | ⟨u, rfl⟩)
      · exact ⟨[], rfl⟩
      · exact ⟨c :: u, rfl⟩
    · rintro ⟨u, hu⟩
      cases u with
      | nil => left; simpa using hu.symm
      | cons d u =>
        right
        injection hu with h1 h2
        exact ⟨u, h2⟩

theorem plainStr_cons {c : Char} {w : List Char} :
    plainStr (c :: w) = true ↔ (c ≠ '%' ∧ c ≠ '_') ∧ plainStr w = true := by
  simp [plainStr, List.all_cons, and_comm]

/-- `%` alone matches everything. -/
theorem sqlLike_percent (s : List Char) : sqlLike ['%'] s = true := by
  simp only [sqlLike, if_pos rfl]
  refine List.any_eq_true.mpr ⟨[], nil_mem_suffixesOf s, ?_⟩
  simp [sqlLike]

/-- For a plain pattern, LIKE is exactly string equality. -/
theorem sqlLike_plain_iff {w : List Char} (hw : plainStr w = true) (s : List Char) :
    sqlLike w s = true ↔ w = s := by
  induction w generalizing s with
  | nil => cases s <;> simp [sqlLike, List.isEmpty]
  | cons p ps ih =>
    obtain ⟨⟨hp1, hp2⟩, hps⟩ := plainStr_cons.mp hw
    cases s with
    | nil => simp [sqlLike, if_neg hp1]
    | cons c s' =>
      simp only [sqlLike, if_neg hp1]
      rw [Bool.and_eq_true, Bool.or_eq_true]
      constructor
      · rintro ⟨hc, hrec⟩
        rcases hc with hc | hc
        · exact absurd (by simpa using hc) hp2
        · have : p = c := by simpa using hc
          rw [this, (ih hps s').mp hrec]
      · intro h
        injection h with h1 h2
        exact ⟨Or.inr (by simp [h1]), (ih hps s').mpr h2⟩

/-- For a plain pattern `w`, `w ++ "%"` matches exactly the strings of
which `w` is a (possibly exhaustive) prefix. -/
theorem sqlLike_append_percent_iff {w : List Char} (hw : plainStr w = true)
    (s : List Char) : sqlLike (w ++ ['%']) s = true ↔ ∃ t, s = w ++ t := by
  induction w generalizing s with
  | nil =>
    simpa using sqlLike_percent s
  | cons p ps ih =>
    obtain ⟨⟨hp1, hp2⟩, hps⟩ := plainStr_cons.mp hw
    cases s with
    | nil => simp [sqlLike, if_neg hp1]
    | cons c s' =>
      simp only [List.cons_append, sqlLike, if_neg hp1]
      rw [Bool.and_eq_true, Bool.or_eq_true]
      constructor
      · rintro ⟨hc, hrec⟩
        rcases hc with hc | hc
        · exact absurd (by simpa using hc) hp2
        · have hpc : p = c := by simpa using hc
          obtain ⟨t, ht⟩ := (ih hps s').mp hrec
          exact ⟨t, by simp [hpc, ht]⟩
      · rintro ⟨t, ht⟩
        injection ht with h1 h2
        exact ⟨Or.inr (by simp [h1]), (ih hps s').mpr ⟨t, h2⟩⟩

/-- For a plain pattern `w`, `w ++ "_%"` matches exactly the strings that
strictly extend `w`: `w` followed by at least one character. -/
theorem sqlLike_append_uscore_percent_iff {w : List Char} (hw : plainStr w = true)
    (s : List Char) :
    sqlLike (w ++ ['_', '%']) s = true ↔ ∃ c t, s = w ++ c :: t := by
  induction w generalizing s with
  | nil =>
    cases s with
    | nil => simp [sqlLike]
    | cons c s' =>
      simp only [List.nil_append, sqlLike]
      rw [if_neg (by decide)]
      simp [sqlLike_percent s', nil_mem_suffixesOf]
  | cons p ps ih =>
    obtain ⟨⟨hp1, hp2⟩, hps⟩ := plainStr_cons.mp hw
    cases s with
    | nil => simp [sqlLike, if_neg hp1]
    | cons c s' =>
      simp only [List.cons_append, sqlLike, if_neg hp1]
      rw [Bool.and_eq_true, Bool.or_eq_true]
      constructor
      · rintro ⟨hc, hrec⟩
        rcases hc with hc | hc
        · exact absurd (by simpa using hc) hp2
        · have hpc : p = c := by simpa using hc
          obtain ⟨d, t, ht⟩ := (ih hps s').mp hrec
          exact ⟨d, t, by simp [hpc, ht]⟩
      · rintro ⟨d, t, ht⟩
        injection ht with h1 h2
        exact ⟨Or.inr (by simp [h1]), (ih hps s').mpr ⟨d, t, h2⟩⟩

/-! ## Lemmas on the sort model -/

theorem mem_insertDescBy {α : Type} (key : α → Nat) (x : α) (l : List α) (a : α) :
    a ∈ insertDescBy key x l ↔ a = x ∨ a ∈ l := by
  induction l with
  | nil => simp [insertDescBy]
  | cons y ys ih =>
    simp only [insertDescBy]
    split
    · simp
    · simp only [List.mem_cons, ih]
      tauto

theorem mem_sortDescBy {α : Type} (key : α → Nat) (l : List α) (a : α) :
    a ∈ sortDescBy key l ↔ a ∈ l := by
  induction l with
  | nil => simp [sortDescBy]
  | cons x xs ih => simp [sortDescBy, mem_insertDescBy, ih]

theorem length_insertDescBy {α : Type} (key : α → Nat) (x : α) (l : List α) :
    (insertDescBy key x l).length = l.length + 1 := by
  induction l with
  | nil => simp [insertDescBy]
  | cons y ys ih =>
    simp only [insertDescBy]
    split <;> simp [ih]

theorem length_sortDescBy {α : Type} (key : α → Nat) (l : List α) :
    (sortDescBy key l).length = l.length := by
  induction l with
  | nil => rfl
  | cons x xs ih => simp [sortDescBy, length_insertDescBy, ih]

theorem pairwise_insertDescBy {α : Type} (key : α → Nat) (x : α) (l : List α)
    (h : l.Pairwise fun a b => key b ≤ key a) :
    (insertDescBy key x l).Pairwise fun a b => key b ≤ key a := by
  induction l with
  | nil => simp [insertDescBy]
  | cons y ys ih =>
    rw [List.pairwise_cons] at h
    simp only [insertDescBy]
    split
    · rename_i hlt
      refine List.pairwise_cons.mpr ⟨?_, List.pairwise_cons.mpr h⟩
      intro b hb
      rcases List.mem_cons.mp hb with rfl | hb
      · omega
      · have := h.1 b hb
        omega
    · rename_i hge
      refine List.pairwise_cons.mpr ⟨?_, ih h.2⟩
      intro b hb
      rcases (mem_insertDescBy key x ys b).mp hb with rfl | hb
      · omega
      · exact h.1 b hb

theorem pairwise_sortDescBy {α : Type} (key : α → Nat) (l : List α) :
    (sortDescBy key l).Pairwise fun a b => key b ≤ key a := by
  induction l with
  | nil => simp [sortDescBy]
  | cons x xs ih => exact pairwise_insertDescBy key x _ ih

/-- An element of a list is kept by `take n`, unless the truncation is
full (`n` elements long). -/
theorem mem_take_or_full {α : Type} {a : α} {l : List α} (n : Nat) (h : a ∈ l) :
    a ∈ l.take n ∨ (l.take n).length = n := by
  by_cases hn : l.length ≤ n
  · left
    rwa [List.take_of_length_le hn]
  · right
    rw [List.length_take]
    omega

/-! ## The sort/take/map pipeline shared by the query models -/

theorem pipeline_mem {α β : Type} {key : α → Nat} {f : α → β} {l : List α}
    {n : Nat} {b : β} (h : b ∈ ((sortDescBy key l).take n).map f) :
    ∃ a, a ∈ l ∧ f a = b := by
  obtain ⟨a, ha, rfl⟩ := List.mem_map.mp h
  exact ⟨a, (mem_sortDescBy key l a).mp (List.take_subset n _ ha), rfl⟩

theorem pipeline_mem_of_mem {α β : Type} (key : α → Nat) (f : α → β) {l : List α}
    (n : Nat) {a : α} (h : a ∈ l) :
    f a ∈ ((sortDescBy key l).take n).map f ∨
      (((sortDescBy key l).take n).map f).length = n := by
  have h1 : a ∈ sortDescBy key l := (mem_sortDescBy key l a).mpr h
  rcases mem_take_or_full n h1 with h2 | h2
  · exact Or.inl (List.mem_map_of_mem f h2)
  · right
    rw [List.length_map]
    exact h2

theorem pipeline_length_le {α β : Type} (key : α → Nat) (f : α → β) (l : List α)
    (n : Nat) : (((sortDescBy key l).take n).map f).length ≤ n := by
  rw [List.length_map, List.length_take]
  omega

theorem pipeline_pairwise {α β : Type} (key : α → Nat) (f : α → β) (l : List α)
    (n : Nat) (R : β → β → Prop) (hf : ∀ a b : α, key b ≤ key a → R (f a) (f b)) :
    (((sortDescBy key l).take n).map f).Pairwise R := by
  have h2 : ((sortDescBy key l).take n).Pairwise fun a b => key b ≤ key a :=
    (pairwise_sortDescBy key l).sublist (List.take_sublist n _)
  exact List.pairwise_map.mpr (h2.imp fun hab => hf _ _ hab)

/-! ## searchDictionary lemmas -/

/-- Inversion for `searchDictionary`: a defined result is the pipeline
over the `WHERE` filter. -/
theorem searchDictionary_eq_some {v : Varnam} {ws : List (List Char)} {all : Bool}
    {res : List Suggestion} (h : searchDictionary v ws all = some res) :
    res = ((sortDescBy (fun r => r.confidence)
        (v.words.filter fun row => searchWhere all ws row)).take 5).map rowToSuggestion := by
  cases ws with
  | nil => cases h
  | cons w rest =>
    simp only [searchDictionary, Option.some.injEq] at h
    exact h.symm

/-- The `all = false` filter keeps exactly the rows whose word equals one
of the (plain) candidates. -/
theorem searchWhere_false_iff {cands : List (List Char)} {row : WordRow}
    (hplain : ∀ w ∈ cands, plainStr w = true) :
    searchWhere false cands row = true ↔ row.word ∈ cands := by
  simp only [searchWhere, if_neg (by simp : ¬(false = true)), List.any_eq_true]
  constructor
  · rintro ⟨w, hw, hlike⟩
    rw [(sqlLike_plain_iff (hplain w hw) row.word).mp hlike] at hw
    exact hw
  · intro hmem
    exact ⟨row.word, hmem, (sqlLike_plain_iff (hplain _ hmem) row.word).mpr rfl⟩

/-- The `all = true` filter, spelt out: some non-final candidate is a
strict prefix of the row's word, or the final candidate is and
additionally `learned_on > 0`. -/
theorem searchWhere_true_iff {c0 : List Char} {rest : List (List Char)}
    {row : WordRow} (hplain : ∀ w ∈ c0 :: rest, plainStr w = true) :
    searchWhere true (c0 :: rest) row = true ↔
      ((∃ c, c ∈ (c0 :: rest).dropLast ∧ ∃ ch t, row.word = c ++ ch :: t)
       ∨ ((∃ ch t, row.word =
            (c0 :: rest).getLast (List.cons_ne_nil c0 rest) ++ ch :: t)
          ∧ 0 < row.learned_on)) := by
  have hlast : (c0 :: rest).getLast? =
      some ((c0 :: rest).getLast (List.cons_ne_nil c0 rest)) :=
    List.getLast?_eq_getLast_of_ne_nil _
  unfold searchWhere
  rw [if_pos rfl, hlast]
  simp only [Bool.or_eq_true, List.any_eq_true, Bool.and_eq_true, decide_eq_true_eq]
  constructor
  · rintro (⟨c, hc, hlike⟩ | ⟨hlike, hl⟩)
    · exact Or.inl ⟨c, hc, (sqlLike_append_uscore_percent_iff
        (hplain c (List.dropLast_subset _ hc)) row.word).mp hlike⟩
    · exact Or.inr ⟨(sqlLike_append_uscore_percent_iff
        (hplain _ (List.getLast_mem _)) row.word).mp hlike, hl⟩
  · rintro (⟨c, hc, hext⟩ | ⟨hext, hl⟩)
    · exact Or.inl ⟨c, hc, (sqlLike_append_uscore_percent_iff
        (hplain c (List.dropLast_subset _ hc)) row.word).mpr hext⟩
    · exact Or.inr ⟨(sqlLike_append_uscore_percent_iff
        (hplain _ (List.getLast_mem _)) row.word).mpr hext, hl⟩

/-- C5.  For every non-empty plain candidate list, `searchDictionary` with
`all = false` keeps exactly the store rows whose word equals one of the
candidates (character for character, no `learned_on` condition), copies
word, confidence and `learned_on` into the suggestion, orders by
confidence descending and caps the list at 5; every matching row is
returned unless the cap is reached. -/
theorem searchDictionary_exact_mode (v : Varnam) (cands : List (List Char))
    (res : List Suggestion)
    (hres : searchDictionary v cands false = some res)
    (hplain : ∀ w ∈ cands, plainStr w = true) :
    (∀ row ∈ v.words, (searchWhere false cands row = true ↔ row.word ∈ cands))
    ∧ (∀ s ∈ res, ∃ row, row ∈ v.words ∧ row.word ∈ cands ∧ s = rowToSuggestion row)
    ∧ res.length ≤ 5
    ∧ res.Pairwise (fun a b : Suggestion => b.Weight ≤ a.Weight)
    ∧ (∀ row ∈ v.words, row.word ∈ cands → rowToSuggestion row ∈ res ∨ res.length = 5) := by
  have hpipe := searchDictionary_eq_some hres
  subst hpipe
  refine ⟨fun row _ => searchWhere_false_iff hplain, ?_, ?_, ?_, ?_⟩
  · intro s hs
    obtain ⟨row, hrow, rfl⟩ := pipeline_mem hs
    have := List.mem_filter.mp hrow
    exact ⟨row, this.1, (searchWhere_false_iff hplain).mp this.2, rfl⟩
  · exact pipeline_length_le _ _ _ _
  · refine pipeline_pairwise _ _ _ _ _ ?_
    intro a b hab
    simp only [rowToSuggestion]
    exact_mod_cast hab
  · intro row hrow hcand
    exact pipeline_mem_of_mem _ _ 5
      (List.mem_filter.mpr ⟨hrow, (searchWhere_false_iff hplain).mpr hcand⟩)

/-- C5 witness: the concrete store `vLearntAB` queried for the word "ab". -/
theorem searchDictionary_exact_mode_witness :
    ∃ row, row ∈ vLearntAB.words ∧ row.word ∈ [['a', 'b']]
      ∧ Suggestion.mk ['a', 'b'] 1 5 = rowToSuggestion row :=
  (searchDictionary_exact_mode vLearntAB [['a', 'b']] [⟨['a', 'b'], 1, 5⟩]
    (by decide) (by decide)).2.1 ⟨['a', 'b'], 1, 5⟩ (by decide)

/-- C4 counterexample: with the two candidates "a" and "x", the store row
"ab" — whose `learned_on` is 0, as the second conjunct records — is
returned by the prefix-mode search, because the SQL `AND learned_on > 0`
binds only to the last candidate's `LIKE` disjunct. -/
theorem searchDictionary_all_learnedOn_cex :
    searchDictionary vTrainedAB [['a'], ['x']] true = some [⟨['a', 'b'], 1, 0⟩]
    ∧ (vTrainedAB.words.all fun r => decide (r.learned_on = 0)) = true := by
  constructor
  · rfl
  · rfl

/-- C4 (amended).  In prefix mode the filter accepts a row exactly when
some non-final candidate is a strict prefix of its word, or the final
candidate is a strict prefix of its word and additionally
`learned_on > 0`: the `learned_on` restriction attaches only to the last
candidate (hence to the single candidate of a one-element list), because
SQL `AND` binds tighter than `OR` in the generated `WHERE` clause; every
returned suggestion comes from a row passing that filter. -/
theorem searchDictionary_all_mode (v : Varnam) (c0 : List Char)
    (rest : List (List Char)) (res : List Suggestion)
    (hres : searchDictionary v (c0 :: rest) true = some res)
    (hplain : ∀ w ∈ c0 :: rest, plainStr w = true) :
    (∀ row ∈ v.words,
      (searchWhere true (c0 :: rest) row = true ↔
        ((∃ c, c ∈ (c0 :: rest).dropLast ∧ ∃ ch t, row.word = c ++ ch :: t)
         ∨ ((∃ ch t, row.word =
              (c0 :: rest).getLast (List.cons_ne_nil c0 rest) ++ ch :: t)
            ∧ 0 < row.learned_on))))
    ∧ (∀ s ∈ res, ∃ row, row ∈ v.words ∧ searchWhere true (c0 :: rest) row = true
        ∧ s = rowToSuggestion row) := by
  have hpipe := searchDictionary_eq_some hres
  subst hpipe
  constructor
  · intro row _
    exact searchWhere_true_iff hplain
  · intro s hs
    obtain ⟨row, hrow, rfl⟩ := pipeline_mem hs
    have := List.mem_filter.mp hrow
    exact ⟨row, this.1, this.2, rfl⟩

/-- C4 witness: the store `vLearntAB` (its word "ab" has `learned_on = 5`)
queried in prefix mode for the single candidate "a". -/
theorem searchDictionary_all_mode_witness :
    ∃ row, row ∈ vLearntAB.words ∧ searchWhere true [['a']] row = true
      ∧ Suggestion.mk ['a', 'b'] 1 5 = rowToSuggestion row :=
  (searchDictionary_all_mode vLearntAB ['a'] [] [⟨['a', 'b'], 1, 5⟩]
    (by decide) (by decide)).2 ⟨['a', 'b'], 1, 5⟩ (by decide)

/-! ## Pattern dictionary lemmas -/

/-- The membership filter of `getTrailingFromPatternDictionary`, spelt
out: the word has some pattern row that starts with `p` (equality
included, since `%` also matches the empty continuation). -/
theorem trailingFilter_iff {v : Varnam} {p : List Char} {w : WordRow}
    (hp : plainStr p = true) :
    (v.patterns.any fun pr => (pr.word_id == w.id) && sqlLike (p ++ ['%']) pr.pattern) = true
      ↔ ∃ pr, pr ∈ v.patterns ∧ pr.word_id = w.id ∧ ∃ t, pr.pattern = p ++ t := by
  simp only [List.any_eq_true, Bool.and_eq_true, beq_iff_eq]
  constructor
  · rintro ⟨pr, hpr, hid, hlike⟩
    exact ⟨pr, hpr, hid, (sqlLike_append_percent_iff hp pr.pattern).mp hlike⟩
  · rintro ⟨pr, hpr, hid, ht⟩
    exact ⟨pr, hpr, hid, (sqlLike_append_percent_iff hp pr.pattern).mpr ht⟩

/-- C6 counterexample: in the store `vPatIN` every stored pattern equals
"in" exactly (second conjunct), yet `getTrailingFromPatternDictionary`
queried with "in" itself returns its word: a stored pattern equal to the
query qualifies, because the bind is `pattern + "%"` and `%` also matches
the empty continuation (contrast `searchDictionary`'s `_%`). -/
theorem getTrailing_equal_pattern_cex :
    getTrailingFromPatternDictionary vPatIN ['i', 'n'] ≠ []
    ∧ (vPatIN.patterns.all fun pr => decide (pr.pattern = ['i', 'n'])) = true := by
  constructor
  · decide
  · rfl

/-- C6 (amended).  `getTrailingFromPatternDictionary` returns exactly the
words having a stored pattern of which `p` is a prefix — the stored
pattern extending the query or being equal to it — ordered by confidence
descending, capped at 10, each weight being the stored confidence plus
the floor; every qualifying word is returned unless the cap is reached. -/
theorem getTrailing_characterization (v : Varnam) (p : List Char)
    (hp : plainStr p = true) :
    (∀ w ∈ v.words,
      ((v.patterns.any fun pr => (pr.word_id == w.id) && sqlLike (p ++ ['%']) pr.pattern) = true
        ↔ ∃ pr, pr ∈ v.patterns ∧ pr.word_id = w.id ∧ ∃ t, pr.pattern = p ++ t))
    ∧ (∀ s ∈ getTrailingFromPatternDictionary v p,
        ∃ w, w ∈ v.words ∧ (∃ pr, pr ∈ v.patterns ∧ pr.word_id = w.id ∧ ∃ t, pr.pattern = p ++ t)
          ∧ s = ⟨w.word, (w.confidence : Int) + (VARNAM_LEARNT_WORD_MIN_CONFIDENCE : Int), 0⟩)
    ∧ (getTrailingFromPatternDictionary v p).length ≤ 10
    ∧ (getTrailingFromPatternDictionary v p).Pairwise (fun a b => b.Weight ≤ a.Weight)
    ∧ (∀ w ∈ v.words,
        (∃ pr, pr ∈ v.patterns ∧ pr.word_id = w.id ∧ ∃ t, pr.pattern = p ++ t) →
        (⟨w.word, (w.confidence : Int) + (VARNAM_LEARNT_WORD_MIN_CONFIDENCE : Int), 0⟩ : Suggestion)
            ∈ getTrailingFromPatternDictionary v p
          ∨ (getTrailingFromPatternDictionary v p).length = 10) := by
  refine ⟨fun w _ => trailingFilter_iff hp, ?_, ?_, ?_, ?_⟩
  · intro s hs
    obtain ⟨w, hw, rfl⟩ := pipeline_mem hs
    have hmem := List.mem_filter.mp hw
    exact ⟨w, hmem.1, (trailingFilter_iff hp).mp hmem.2, rfl⟩
  · exact pipeline_length_le _ _ _ _
  · refine pipeline_pairwise _ _ _ _ _ ?_
    intro a b hab
    simp only []
    omega
  · intro w hw hcond
    exact pipeline_mem_of_mem _ _ 10
      (List.mem_filter.mpr ⟨hw, (trailingFilter_iff hp).mpr hcond⟩)

/-- C6 witness: the concrete store `vPatIN` queried with the proper
pattern prefix "i", whose suggestion "X" is returned. -/
theorem getTrailing_characterization_witness :
    ∃ w, w ∈ vPatIN.words
      ∧ (∃ pr, pr ∈ vPatIN.patterns ∧ pr.word_id = w.id ∧ ∃ t, pr.pattern = ['i'] ++ t)
      ∧ Suggestion.mk ['X'] 32 0 =
          ⟨w.word, (w.confidence : Int) + (VARNAM_LEARNT_WORD_MIN_CONFIDENCE : Int), 0⟩ :=
  (getTrailing_characterization vPatIN ['i'] (by decide)).2.1 ⟨['X'], 32, 0⟩ (by decide)

/-- The membership filter of `getFromPatternDictionary`, spelt out:
the query extends the stored pattern, or the stored pattern starts with
the query. -/
theorem patternFilter_iff {p : List Char} {pr : PatternRow}
    (hp : plainStr p = true) (hpr : plainStr pr.pattern = true) :
    (sqlLike (pr.pattern ++ ['%']) p || sqlLike (p ++ ['%']) pr.pattern) = true
      ↔ (∃ t, p = pr.pattern ++ t) ∨ (∃ t, pr.pattern = p ++ t) := by
  rw [Bool.or_eq_true, sqlLike_append_percent_iff hpr p,
    sqlLike_append_percent_iff hp pr.pattern]

/-- C7.  `getFromPatternDictionary` keeps exactly the pattern rows of
which the query is an extension (the stored pattern a prefix of the
query) or whose stored pattern starts with the query; each suggestion is
annotated with the stored pattern's character length and carries the
referenced word and its confidence plus the floor; the list is ordered by
stored-pattern length descending and capped at 10, and every qualifying
row is returned unless the cap is reached. -/
theorem getFromPattern_characterization (v : Varnam) (p : List Char)
    (hp : plainStr p = true)
    (hpat : ∀ pr ∈ v.patterns, plainStr pr.pattern = true)
    (href : (v.patterns.all fun pr => v.words.any fun row => row.id == pr.word_id) = true) :
    (∀ pr ∈ v.patterns,
      ((sqlLike (pr.pattern ++ ['%']) p || sqlLike (p ++ ['%']) pr.pattern) = true
        ↔ (∃ t, p = pr.pattern ++ t) ∨ (∃ t, pr.pattern = p ++ t)))
    ∧ (∀ x ∈ getFromPatternDictionary v p,
        ∃ pr, pr ∈ v.patterns
          ∧ ((∃ t, p = pr.pattern ++ t) ∨ (∃ t, pr.pattern = p ++ t))
          ∧ x.Length = pr.pattern.length
          ∧ ∃ row, wordById v pr.word_id = some row ∧ row ∈ v.words ∧ row.id = pr.word_id
              ∧ x.Sug = ⟨row.word,
                  (row.confidence : Int) + (VARNAM_LEARNT_WORD_MIN_CONFIDENCE : Int), 0⟩)
    ∧ (getFromPatternDictionary v p).length ≤ 10
    ∧ (getFromPatternDictionary v p).Pairwise (fun a b => b.Length ≤ a.Length)
    ∧ (∀ pr ∈ v.patterns,
        ((∃ t, p = pr.pattern ++ t) ∨ (∃ t, pr.pattern = p ++ t)) →
        ({ Length := pr.pattern.length
           Sug := ⟨((wordById v pr.word_id).map fun w => w.word).getD [],
                   (((wordById v pr.word_id).map fun w => (w.confidence : Int)).getD 0) +
                     (VARNAM_LEARNT_WORD_MIN_CONFIDENCE : Int),
                   0⟩ } : PatternDictionarySuggestion) ∈ getFromPatternDictionary v p
          ∨ (getFromPatternDictionary v p).length = 10) := by
  refine ⟨fun pr hpr => patternFilter_iff hp (hpat pr hpr), ?_, ?_, ?_, ?_⟩
  · intro x hx
    obtain ⟨pr, hpr, rfl⟩ := pipeline_mem hx
    have hmem := List.mem_filter.mp hpr
    refine ⟨pr, hmem.1, (patternFilter_iff hp (hpat pr hmem.1)).mp hmem.2, rfl, ?_⟩
    have hex : ∃ row, row ∈ v.words ∧ (row.id == pr.word_id) = true := by
      have := (List.all_eq_true.mp href) pr hmem.1
      simpa [List.any_eq_true] using this
    have hsome : (wordById v pr.word_id).isSome := by
      rw [wordById, List.find?_isSome]
      exact hex
    obtain ⟨row, hrow⟩ := Option.isSome_iff_exists.mp hsome
    have hfind : v.words.find? (fun w => w.id == pr.word_id) = some row := by
      rw [wordById] at hrow
      exact hrow
    refine ⟨row, hrow, List.mem_of_find?_eq_some hfind, ?_, ?_⟩
    · have hbeq := List.find?_some hfind
      simpa using hbeq
    · simp [hrow]
  · exact pipeline_length_le _ _ _ _
  · refine pipeline_pairwise _ _ _ _ _ ?_
    intro a b hab
    simpa using hab
  · intro pr hpr hcond
    exact pipeline_mem_of_mem _ _ 10
      (List.mem_filter.mpr ⟨hpr, (patternFilter_iff hp (hpat pr hpr)).mpr hcond⟩)

/-- C7 witness: the concrete store `vPatIN` queried with "inx", an
extension of the stored pattern "in". -/
theorem getFromPattern_characterization_witness :
    (getFromPatternDictionary vPatIN ['i', 'n', 'x']).length ≤ 10 :=
  (getFromPattern_characterization vPatIN ['i', 'n', 'x'] (by decide) (by decide)
    (by rfl)).2.2.1

/-- C8.  Every suggestion produced by either pattern read operation
carries weight equal to the referenced word's stored confidence plus
`VARNAM_LEARNT_WORD_MIN_CONFIDENCE`, and is therefore at least the
floor. -/
theorem patternSuggestion_weight_floor :
    (∀ (v : Varnam) (p : List Char) (s : Suggestion),
        s ∈ getTrailingFromPatternDictionary v p →
        (VARNAM_LEARNT_WORD_MIN_CONFIDENCE : Int) ≤ s.Weight ∧
        ∃ row, row ∈ v.words ∧
          s.Weight = (row.confidence : Int) + (VARNAM_LEARNT_WORD_MIN_CONFIDENCE : Int))
    ∧ (∀ (v : Varnam) (p : List Char) (x : PatternDictionarySuggestion),
        x ∈ getFromPatternDictionary v p →
        (v.patterns.all fun pr => v.words.any fun row => row.id == pr.word_id) = true →
        (VARNAM_LEARNT_WORD_MIN_CONFIDENCE : Int) ≤ x.Sug.Weight ∧
        ∃ row, row ∈ v.words ∧
          x.Sug.Weight = (row.confidence : Int) + (VARNAM_LEARNT_WORD_MIN_CONFIDENCE : Int)) := by
  constructor
  · intro v p s hs
    obtain ⟨w, hw, rfl⟩ := pipeline_mem hs
    refine ⟨by simp, w, (List.mem_filter.mp hw).1, rfl⟩
  · intro v p x hx href
    obtain ⟨pr, hpr, rfl⟩ := pipeline_mem hx
    have hmem := List.mem_filter.mp hpr
    have hex : ∃ row, row ∈ v.words ∧ (row.id == pr.word_id) = true := by
      have := (List.all_eq_true.mp href) pr hmem.1
      simpa [List.any_eq_true] using this
    have hsome : (wordById v pr.word_id).isSome := by
      rw [wordById, List.find?_isSome]
      exact hex
    obtain ⟨row, hrow⟩ := Option.isSome_iff_exists.mp hsome
    have hfind : v.words.find? (fun w => w.id == pr.word_id) = some row := by
      rw [wordById] at hrow
      exact hrow
    refine ⟨?_, row, List.mem_of_find?_eq_some hfind, ?_⟩
    · simp [hrow]
    · simp [hrow]

/-- C8 witness: the suggestion returned for pattern "in" in the concrete
store `vPatIN`. -/
theorem patternSuggestion_weight_floor_witness :
    (VARNAM_LEARNT_WORD_MIN_CONFIDENCE : Int) ≤ (Suggestion.mk ['X'] 32 0).Weight ∧
    ∃ row, row ∈ vPatIN.words ∧
      (Suggestion.mk ['X'] 32 0).Weight =
        (row.confidence : Int) + (VARNAM_LEARNT_WORD_MIN_CONFIDENCE : Int) :=
  patternSuggestion_weight_floor.1 vPatIN ['i', 'n'] ⟨['X'], 32, 0⟩ (by decide)

/-! ## Matcher lemmas -/

/-- `commit` never touches the in-flight list. -/
theorem commit_results (i : Nat) (t : Token) (st : MatchState)
    (tempFound : List Suggestion) : (commit i t st tempFound).results = st.results := by
  unfold commit
  split <;> rfl

/-- At loop index 0 nothing is ever committed. -/
theorem commit_zero (t : Token) (st : MatchState) (tempFound : List Suggestion) :
    commit 0 t st tempFound = st := by
  unfold commit
  rw [if_neg]
  simp

/-- C9.  A single-token input, whatever the token, its possibilities and
the store: the matcher returns no suggestions and longest-match position
0 — found results at loop index 0 are never committed — and the
exact-match flag is the comparison of 0 with the token's position field,
hence `true` whenever that field is 0. -/
theorem getFromDictionary_single_token (v : Varnam) (t : Token) :
    getFromDictionary v [t] = some ⟨[], 0 == t.position, 0⟩ := by
  obtain ⟨ty, toks, pos⟩ := t
  cases ty <;>
    simp [getFromDictionary, runTokens, step, commit_zero]

/-- C2.  For a non-empty token list, the returned exact-match flag is true
exactly when the recorded longest-match position equals the last token's
position field. -/
theorem getFromDictionary_exactMatch_iff (v : Varnam) (ts : List Token)
    (res : DictionaryResult) (h : ts ≠ [])
    (hres : getFromDictionary v ts = some res) :
    (res.exactMatch = true ↔ res.longestMatchPosition = (ts.getLast h).position) := by
  unfold getFromDictionary at hres
  rw [List.getLast?_eq_getLast_of_ne_nil h] at hres
  cases hrun : runTokens v 0 ⟨[], 0, []⟩ ts with
  | none =>
    rw [hrun] at hres
    cases hres
  | some st =>
    rw [hrun] at hres
    injection hres with h2
    subst h2
    simp only []
    exact beq_iff_eq

/-- C2 witness: a one-token input over the store `vLearntAB`. -/
theorem getFromDictionary_exactMatch_iff_witness :
    (DictionaryResult.mk [] true 0).exactMatch = true ↔
      (DictionaryResult.mk [] true 0).longestMatchPosition =
        (([charTok 0]).getLast (by simp)).position :=
  getFromDictionary_exactMatch_iff vLearntAB [charTok 0] ⟨[], true, 0⟩
    (by simp) (by rfl)

/-- Definitional unfolding of `extendResults` on a cons cell. -/
theorem extendResults_cons (v : Varnam) (toks : List Symbol) (result : Suggestion)
    (rest : List Suggestion) :
    extendResults v toks (result :: rest) =
      if result.Weight = -1 then
        match extendResults v toks rest with
        | none => none
        | some (u, a, f) => some (result :: u, a, f)
      else
        match toks with
        | [] => none
        | ft :: others =>
          match extendResults v toks rest with
          | none => none
          | some (u, a, f) =>
            let one := extendOne v ft others result
            some (one.1 :: u, one.2.1 ++ a, one.2.2 ++ f) := rfl

/-- `extendResults` is defined whenever the possibility list is
non-empty. -/
theorem extendResults_isSome (v : Varnam) (toks : List Symbol) (htoks : toks ≠ []) :
    ∀ rs : List Suggestion, (extendResults v toks rs).isSome = true := by
  intro rs
  induction rs with
  | nil => rfl
  | cons r rest ih =>
    rw [extendResults_cons]
    by_cases hw : r.Weight = -1
    · rw [if_pos hw]
      cases hrec : extendResults v toks rest with
      | none => rw [hrec] at ih; cases ih
      | some ufa =>
        obtain ⟨u, a, f⟩ := ufa
        rfl
    · rw [if_neg hw]
      cases toks with
      | nil => exact absurd rfl htoks
      | cons ft others =>
        cases hrec : extendResults v (ft :: others) rest with
        | none => rw [hrec] at ih; cases ih
        | some ufa =>
          obtain ⟨u, a, f⟩ := ufa
          rfl

/-- `step` is defined whenever a `SYMBOL` token has a possibility. -/
theorem step_isSome (v : Varnam) (i : Nat) (t : Token) (st : MatchState)
    (h : t.tokenType = TokenType.VARNAM_TOKEN_SYMBOL → t.token ≠ []) :
    (step v i t st).isSome = true := by
  unfold step
  by_cases hty : t.tokenType = TokenType.VARNAM_TOKEN_SYMBOL
  · rw [if_pos hty]
    by_cases hi : i = 0
    · rw [if_pos hi]
      rfl
    · rw [if_neg hi]
      cases hrec : extendResults v t.token st.results with
      | none =>
        have := extendResults_isSome v t.token (h hty) st.results
        rw [hrec] at this
        cases this
      | some ufa =>
        obtain ⟨u, a, f⟩ := ufa
        rfl
  · rw [if_neg hty]
    rfl

/-- The loop is defined whenever every `SYMBOL` token has a possibility. -/
theorem runTokens_isSome (v : Varnam) :
    ∀ (ts : List Token) (i : Nat) (st : MatchState),
      (∀ t ∈ ts, t.tokenType = TokenType.VARNAM_TOKEN_SYMBOL → t.token ≠ []) →
      (runTokens v i st ts).isSome = true := by
  intro ts
  induction ts with
  | nil => intro i st _; rfl
  | cons t rest ih =>
    intro i st h
    rw [runTokens]
    cases hstep : step v i t st with
    | none =>
      have := step_isSome v i t st (h t (List.mem_cons_self t rest))
      rw [hstep] at this
      cases this
    | some st' =>
      exact ih (i + 1) st' fun u hu => h u (List.mem_cons_of_mem t hu)

/-- C10 counterexample: a non-empty token list on which
`getFromDictionary` still panics — the second `SYMBOL` token has an empty
possibility list and a live in-flight candidate reads `t.token[0]`. -/
theorem getFromDictionary_empty_possibility_cex :
    getFromDictionary vLearntAB [symTok [⟨['a']⟩] 0, symTok [] 1] = none
    ∧ ([symTok [⟨['a']⟩] 0, symTok [] 1] : List Token) ≠ [] := by
  constructor
  · rfl
  · simp [symTok]

/-- C10 (amended).  `searchDictionary` is defined exactly on non-empty
candidate lists; `getFromDictionary` panics on the empty token list, and
on non-empty input it is defined whenever every `SYMBOL` token has at
least one possibility — non-emptiness of the token list alone does not
guarantee in-bounds access, as a live candidate reads `t.token[0]` of
each later `SYMBOL` token. -/
theorem dictionary_access_safety :
    (∀ (v : Varnam) (ws : List (List Char)) (all : Bool),
        (searchDictionary v ws all).isSome = true ↔ ws ≠ [])
    ∧ (∀ v : Varnam, getFromDictionary v [] = none)
    ∧ (∀ (v : Varnam) (ts : List Token), ts ≠ [] →
        (∀ t ∈ ts, t.tokenType = TokenType.VARNAM_TOKEN_SYMBOL → t.token ≠ []) →
        (getFromDictionary v ts).isSome = true) := by
  refine ⟨?_, ?_, ?_⟩
  · intro v ws all
    cases ws <;> simp [searchDictionary]
  · intro v
    rfl
  · intro v ts hne h
    unfold getFromDictionary
    rw [List.getLast?_eq_getLast_of_ne_nil hne]
    cases hrun : runTokens v 0 ⟨[], 0, []⟩ ts with
    | none =>
      have := runTokens_isSome v ts 0 ⟨[], 0, []⟩ h
      rw [hrun] at this
      cases this
    | some st => rfl

/-- C10 witness: concrete instances of all three parts. -/
theorem dictionary_access_safety_witness :
    (searchDictionary vLearntAB [['a', 'b']] false).isSome = true
    ∧ getFromDictionary vLearntAB [] = none
    ∧ (getFromDictionary vLearntAB [symTok [⟨['a']⟩] 0]).isSome = true :=
  ⟨(dictionary_access_safety.1 vLearntAB [['a', 'b']] false).mpr (by simp),
   dictionary_access_safety.2.1 vLearntAB,
   dictionary_access_safety.2.2 vLearntAB [symTok [⟨['a']⟩] 0] (by simp)
     (by intro t ht hty; simp [symTok] at ht; subst ht; simp [symTok])⟩

/-- Once the in-flight list is empty and the loop index is past 0, the
rest of the loop changes nothing: no seeding can happen any more and
there is nothing to extend. -/
theorem runTokens_empty_results (v : Varnam) :
    ∀ (ts : List Token) (i : Nat) (fp : Nat) (fd : List Suggestion), i ≠ 0 →
      runTokens v i ⟨[], fp, fd⟩ ts = some ⟨[], fp, fd⟩ := by
  intro ts
  induction ts with
  | nil => intro i fp fd _; rfl
  | cons t rest ih =>
    intro i fp fd hi
    rw [runTokens]
    have hstep : step v i t ⟨[], fp, fd⟩ = some ⟨[], fp, fd⟩ := by
      unfold step
      by_cases hty : t.tokenType = TokenType.VARNAM_TOKEN_SYMBOL
      · rw [if_pos hty, if_neg hi]
        show some (commit i t ⟨[], fp, fd⟩ []) = some ⟨[], fp, fd⟩
        unfold commit
        rw [if_neg]
        simp
      · rw [if_neg hty]
        unfold commit
        rw [if_neg]
        simp
    rw [hstep]
    exact ih (i + 1) fp fd (by omega)

/-- C3 counterexample: over the store `vLearntAB` (holding "ab"), the
input whose first `SYMBOL` token sits at index 1 — behind a pass-through
token — ends the loop with an *empty* in-flight list (first conjunct):
no candidate was seeded from that token's possibility "a", and no
suggestion is returned (second conjunct), although the same two symbol
tokens placed at the head of the input seed, extend and find "ab" (third
conjunct). -/
theorem getFromDictionary_seed_cex :
    runTokens vLearntAB 0 ⟨[], 0, []⟩
        [charTok 0, symTok [⟨['a']⟩] 1, symTok [⟨['b']⟩] 2] = some ⟨[], 0, []⟩
    ∧ getFromDictionary vLearntAB
        [charTok 0, symTok [⟨['a']⟩] 1, symTok [⟨['b']⟩] 2] = some ⟨[], false, 0⟩
    ∧ getFromDictionary vLearntAB [symTok [⟨['a']⟩] 0, symTok [⟨['b']⟩] 1]
        = some ⟨[⟨['a', 'b'], 1, 5⟩], true, 1⟩ :=
  ⟨rfl, rfl, rfl⟩

/-- C3 (amended).  Seeding happens only at loop index 0: when the very
first token is a `SYMBOL`, one in-flight suggestion per possibility is
appended — word the possibility's literal string, weight 0, independent
of the store, so before any dictionary lookup; when the first token is
not a `SYMBOL`, no candidate is ever seeded, whatever later `SYMBOL`
tokens exist, and the matcher returns an empty suggestion list with
longest-match position 0. -/
theorem getFromDictionary_seeding (v : Varnam) (t0 : Token) (ts : List Token) :
    (t0.tokenType = TokenType.VARNAM_TOKEN_SYMBOL →
      ∀ st : MatchState, step v 0 t0 st =
        some { st with results :=
          st.results ++ t0.token.map fun possibility => Suggestion.mk possibility.value1 0 0 })
    ∧ (t0.tokenType ≠ TokenType.VARNAM_TOKEN_SYMBOL →
        ∃ b : Bool, getFromDictionary v (t0 :: ts) = some ⟨[], b, 0⟩) := by
  constructor
  · intro hty st
    unfold step
    rw [if_pos hty, if_pos rfl]
    show some (commit 0 t0 _ _) = _
    rw [commit_zero]
  · intro hty
    have hstep : step v 0 t0 ⟨[], 0, []⟩ = some ⟨[], 0, []⟩ := by
      unfold step
      rw [if_neg hty, commit_zero]
    have hrun : runTokens v 0 ⟨[], 0, []⟩ (t0 :: ts) = some ⟨[], 0, []⟩ := by
      rw [runTokens, hstep]
      exact runTokens_empty_results v ts 1 0 [] (by omega)
    have hlast : (t0 :: ts).getLast? =
        some ((t0 :: ts).getLast (List.cons_ne_nil t0 ts)) :=
      List.getLast?_eq_getLast_of_ne_nil _
    refine ⟨(0 == ((t0 :: ts).getLast (List.cons_ne_nil t0 ts)).position), ?_⟩
    unfold getFromDictionary
    rw [hlast, hrun]

/-- C3 witness: seeding from a concrete first `SYMBOL` token. -/
theorem getFromDictionary_seeding_witness :
    step vLearntAB 0 (symTok [⟨['a']⟩] 0) ⟨[], 0, []⟩ =
      some ⟨[⟨['a'], 0, 0⟩], 0, []⟩ :=
  (getFromDictionary_seeding vLearntAB (symTok [⟨['a']⟩] 0) []).1 rfl ⟨[], 0, []⟩

/-! ## Dead-branch lemmas -/

/-- Every found word contributed by the `k`-loop is the top search result
of some possibility's extension of `till`. -/
theorem siblingSearch_found {v : Varnam} {till : List Char} :
    ∀ {others : List Symbol} {s : Suggestion}, s ∈ (siblingSearch v till others).2 →
      ∃ p, p ∈ others ∧ ∃ tl, searchExact v (till ++ p.value1) = s :: tl := by
  intro others
  induction others with
  | nil => intro s hs; cases hs
  | cons q qs ih =>
    intro s hs
    rw [siblingSearch] at hs
    cases hse : searchExact v (till ++ q.value1) with
    | nil =>
      rw [hse] at hs
      obtain ⟨p, hp, htl⟩ := ih hs
      exact ⟨p, List.mem_cons_of_mem q hp, htl⟩
    | cons s0 tl =>
      rw [hse] at hs
      rcases List.mem_cons.mp hs with rfl | hs
      · exact ⟨q, List.mem_cons_self q qs, tl, hse⟩
      · obtain ⟨p, hp, htl⟩ := ih hs
        exact ⟨p, List.mem_cons_of_mem q hp, htl⟩

/-- Conversely, every possibility of the `k`-loop whose extension has a
non-empty exact search contributes its top result. -/
theorem siblingSearch_mem {v : Varnam} {till : List Char} :
    ∀ {others : List Symbol} {p : Symbol} {s : Suggestion} {tl : List Suggestion},
      p ∈ others → searchExact v (till ++ p.value1) = s :: tl →
      s ∈ (siblingSearch v till others).2 := by
  intro others
  induction others with
  | nil => intro p s tl hp _; cases hp
  | cons q qs ih =>
    intro p s tl hp hse
    rw [siblingSearch]
    rcases List.mem_cons.mp hp with rfl | hp
    · rw [hse]
      exact List.mem_cons_self s _
    · cases hq : searchExact v (till ++ q.value1) with
      | nil => exact ih hp hse
      | cons s0 tl0 => exact List.mem_cons_of_mem s0 (ih hp hse)

/-- Inversion of one `j`-loop iteration. -/
theorem extendResults_cons_inv {v : Varnam} {toks : List Symbol} {r : Suggestion}
    {rest u a f : List Suggestion}
    (h : extendResults v toks (r :: rest) = some (u, a, f)) :
    (r.Weight = -1 ∧ ∃ u', extendResults v toks rest = some (u', a, f) ∧ u = r :: u')
    ∨ (¬r.Weight = -1 ∧ ∃ ft others u' a' f', toks = ft :: others
        ∧ extendResults v toks rest = some (u', a', f')
        ∧ u = (extendOne v ft others r).1 :: u'
        ∧ a = (extendOne v ft others r).2.1 ++ a'
        ∧ f = (extendOne v ft others r).2.2 ++ f') := by
  rw [extendResults_cons] at h
  by_cases hw : r.Weight = -1
  · rw [if_pos hw] at h
    cases hrec : extendResults v toks rest with
    | none => rw [hrec] at h; cases h
    | some ufa =>
      obtain ⟨u', a', f'⟩ := ufa
      rw [hrec] at h
      simp only [Option.some.injEq, Prod.mk.injEq] at h
      obtain ⟨rfl, rfl, rfl⟩ := h
      exact Or.inl ⟨hw, u', rfl, rfl⟩
  · rw [if_neg hw] at h
    cases toks with
    | nil => cases h
    | cons ft others =>
      cases hrec : extendResults v (ft :: others) rest with
      | none => rw [hrec] at h; cases h
      | some ufa =>
        obtain ⟨u', a', f'⟩ := ufa
        rw [hrec] at h
        simp only [Option.some.injEq, Prod.mk.injEq] at h
        obtain ⟨rfl, rfl, rfl⟩ := h
        exact Or.inr ⟨hw, ft, others, u', a', f', rfl, rfl, rfl, rfl, rfl⟩

/-- The `j`-loop returns as many updated entries as it was given:
in-flight indices are stable. -/
theorem extendResults_length {v : Varnam} {toks : List Symbol} :
    ∀ {rs u a f : List Suggestion}, extendResults v toks rs = some (u, a, f) →
      u.length = rs.length := by
  intro rs
  induction rs with
  | nil =>
    intro u a f h
    simp only [extendResults, Option.some.injEq, Prod.mk.injEq] at h
    obtain ⟨rfl, rfl, rfl⟩ := h
    rfl
  | cons r rest ih =>
    intro u a f h
    rcases extendResults_cons_inv h with ⟨hw, u', hrec, rfl⟩ |
      ⟨hw, ft, others, u', a', f', htoks, hrec, rfl, rfl, rfl⟩
    · simp [ih hrec]
    · simp [ih hrec]

/-- A dead entry (`Weight = -1`) passes through the `j`-loop untouched, at
its own index: it is neither extended nor searched. -/
theorem extendResults_dead {v : Varnam} {toks : List Symbol} :
    ∀ {rs u a f : List Suggestion} {j : Nat} {r : Suggestion},
      extendResults v toks rs = some (u, a, f) →
      rs[j]? = some r → r.Weight = -1 → u[j]? = some r := by
  intro rs
  induction rs with
  | nil => intro u a f j r _ hj; cases hj
  | cons r0 rest ih =>
    intro u a f j r h hj hw
    rcases extendResults_cons_inv h with ⟨hw0, u', hrec, rfl⟩ |
      ⟨hw0, ft, others, u', a', f', htoks, hrec, rfl, rfl, rfl⟩
    · cases j with
      | zero =>
        rw [List.getElem?_cons_zero] at hj ⊢
        exact hj
      | succ j =>
        rw [List.getElem?_cons_succ] at hj ⊢
        exact ih hrec hj hw
    · cases j with
      | zero =>
        rw [List.getElem?_cons_zero] at hj
        injection hj with hj
        subst hj
        exact absurd hw hw0
      | succ j =>
        rw [List.getElem?_cons_succ] at hj ⊢
        exact ih hrec hj hw

/-- A live entry whose first-possibility extension finds nothing in the
store is marked dead in place: word extended by the first possibility,
weight set to the sentinel `-1`. -/
theorem extendResults_mark_dead {v : Varnam} {toks : List Symbol} :
    ∀ {rs u a f : List Suggestion} {j : Nat} {r : Suggestion} {ft : Symbol}
      {others : List Symbol},
      extendResults v toks rs = some (u, a, f) →
      rs[j]? = some r → ¬r.Weight = -1 → toks = ft :: others →
      searchExact v (r.Word ++ ft.value1) = [] →
      u[j]? = some ⟨r.Word ++ ft.value1, -1, r.LearnedOn⟩ := by
  intro rs
  induction rs with
  | nil => intro u a f j r ft others _ hj; cases hj
  | cons r0 rest ih =>
    intro u a f j r ft others h hj hw htoks hse
    rcases extendResults_cons_inv h with ⟨hw0, u', hrec, rfl⟩ |
      ⟨hw0, ft', others', u', a', f', htoks', hrec, rfl, rfl, rfl⟩
    · cases j with
      | zero =>
        rw [List.getElem?_cons_zero] at hj
        injection hj with hj
        subst hj
        exact absurd hw0 hw
      | succ j =>
        rw [List.getElem?_cons_succ] at hj ⊢
        exact ih hrec hj hw htoks hse
    · cases j with
      | zero =>
        rw [List.getElem?_cons_zero] at hj
        injection hj with hj
        subst hj
        rw [htoks] at htoks'
        injection htoks' with h1 h2
        subst h1
        subst h2
        rw [List.getElem?_cons_zero]
        unfold extendOne
        rw [hse]
      | succ j =>
        rw [List.getElem?_cons_succ] at hj ⊢
        exact ih hrec hj hw htoks hse

/-- Every found word of one `j`-loop pass arises as the top search result
of a possibility extending a candidate that was *live* when the pass
began: no found word is built by extending a dead branch. -/
theorem extendResults_found {v : Varnam} {toks : List Symbol} :
    ∀ {rs u a f : List Suggestion} {s : Suggestion},
      extendResults v toks rs = some (u, a, f) → s ∈ f →
      ∃ r, r ∈ rs ∧ ¬r.Weight = -1 ∧
        ∃ p, p ∈ toks ∧ ∃ tl, searchExact v (r.Word ++ p.value1) = s :: tl := by
  intro rs
  induction rs with
  | nil =>
    intro u a f s h hs
    simp only [extendResults, Option.some.injEq, Prod.mk.injEq] at h
    obtain ⟨rfl, rfl, rfl⟩ := h
    cases hs
  | cons r0 rest ih =>
    intro u a f s h hs
    rcases extendResults_cons_inv h with ⟨hw0, u', hrec, rfl⟩ |
      ⟨hw0, ft, others, u', a', f', htoks, hrec, rfl, rfl, rfl⟩
    · obtain ⟨r, hr, hlive, hp⟩ := ih hrec hs
      exact ⟨r, List.mem_cons_of_mem r0 hr, hlive, hp⟩
    · rcases List.mem_append.mp hs with hs | hs
      · subst htoks
        unfold extendOne at hs
        cases hse : searchExact v (r0.Word ++ ft.value1) with
        | nil =>
          rw [hse] at hs
          obtain ⟨p, hp, htl⟩ := siblingSearch_found hs
          exact ⟨r0, List.mem_cons_self r0 rest, hw0,
            p, List.mem_cons_of_mem ft hp, htl⟩
        | cons s0 tl =>
          rw [hse] at hs
          rcases List.mem_cons.mp hs with rfl | hs
          · exact ⟨r0, List.mem_cons_self r0 rest, hw0,
              ft, List.mem_cons_self ft others, tl, hse⟩
          · obtain ⟨p, hp, htl⟩ := siblingSearch_found hs
            exact ⟨r0, List.mem_cons_self r0 rest, hw0,
              p, List.mem_cons_of_mem ft hp, htl⟩
      · obtain ⟨r, hr, hlive, hp⟩ := ih hrec hs
        exact ⟨r, List.mem_cons_of_mem r0 hr, hlive, hp⟩

/-- Conversely, every possibility of every still-live candidate whose
extension has a non-empty exact search contributes its top hit to this
position's found words: siblings of a branch that dies here are still
explored and returned. -/
theorem extendResults_sibling {v : Varnam} {toks : List Symbol} :
    ∀ {rs u a f : List Suggestion} {r : Suggestion} {p : Symbol} {s : Suggestion}
      {tl : List Suggestion},
      extendResults v toks rs = some (u, a, f) →
      r ∈ rs → ¬r.Weight = -1 → p ∈ toks →
      searchExact v (r.Word ++ p.value1) = s :: tl → s ∈ f := by
  intro rs
  induction rs with
  | nil => intro u a f r p s tl _ hr; cases hr
  | cons r0 rest ih =>
    intro u a f r p s tl h hr hlive hp hse
    rcases extendResults_cons_inv h with ⟨hw0, u', hrec, rfl⟩ |
      ⟨hw0, ft, others, u', a', f', htoks, hrec, rfl, rfl, rfl⟩
    · rcases List.mem_cons.mp hr with rfl | hr
      · exact absurd hw0 hlive
      · exact ih hrec hr hlive hp hse
    · rcases List.mem_cons.mp hr with rfl | hr
      · refine List.mem_append.mpr (Or.inl ?_)
        subst htoks
        unfold extendOne
        rcases List.mem_cons.mp hp with rfl | hp
        · rw [hse]
          exact List.mem_cons_self s _
        · cases hse0 : searchExact v (r.Word ++ ft.value1) with
          | nil => exact siblingSearch_mem hp hse
          | cons s0 tl0 => exact List.mem_cons_of_mem s0 (siblingSearch_mem hp hse)
      · exact List.mem_append.mpr (Or.inr (ih hrec hr hlive hp hse))

/-- A dead in-flight entry survives one loop iteration unchanged, at its
own index. -/
theorem step_dead {v : Varnam} {i : Nat} {t : Token} {st st' : MatchState}
    {j : Nat} {r : Suggestion} (h : step v i t st = some st')
    (hj : st.results[j]? = some r) (hw : r.Weight = -1) :
    st'.results[j]? = some r := by
  have hjlt : j < st.results.length := (List.getElem?_eq_some.mp hj).1
  unfold step at h
  by_cases hty : t.tokenType = TokenType.VARNAM_TOKEN_SYMBOL
  · rw [if_pos hty] at h
    by_cases hi : i = 0
    · rw [if_pos hi] at h
      injection h with h
      subst h
      rw [commit_results]
      show (st.results ++ _)[j]? = some r
      rw [List.getElem?_append_left hjlt]
      exact hj
    · rw [if_neg hi] at h
      cases hrec : extendResults v t.token st.results with
      | none => rw [hrec] at h; cases h
      | some ufa =>
        obtain ⟨u, a, f⟩ := ufa
        rw [hrec] at h
        injection h with h
        subst h
        rw [commit_results]
        show (u ++ a)[j]? = some r
        have hulen : u.length = st.results.length := extendResults_length hrec
        rw [List.getElem?_append_left (by omega)]
        exact extendResults_dead hrec hj hw
  · rw [if_neg hty] at h
    injection h with h
    subst h
    rw [commit_results]
    exact hj

/-- A dead in-flight entry survives the whole remaining loop unchanged,
at its own index: it is never extended or searched at any deeper
position. -/
theorem runTokens_dead {v : Varnam} :
    ∀ {ts : List Token} {i : Nat} {st st' : MatchState} {j : Nat} {r : Suggestion},
      runTokens v i st ts = some st' → st.results[j]? = some r → r.Weight = -1 →
      st'.results[j]? = some r := by
  intro ts
  induction ts with
  | nil =>
    intro i st st' j r h hj _
    injection h with h
    subst h
    exact hj
  | cons t rest ih =>
    intro i st st' j r h hj hw
    rw [runTokens] at h
    cases hstep : step v i t st with
    | none => rw [hstep] at h; cases h
    | some st1 =>
      rw [hstep] at h
      exact ih h (step_dead hstep hj hw) hw

/-- The found set after one iteration is either untouched or the found
words of a `j`-loop pass. -/
theorem step_found {v : Varnam} {i : Nat} {t : Token} {st st' : MatchState}
    (h : step v i t st = some st') :
    st'.foundDictWords = st.foundDictWords ∨
      ∃ toks rs u a f, extendResults v toks rs = some (u, a, f) ∧
        st'.foundDictWords = f := by
  unfold step at h
  by_cases hty : t.tokenType = TokenType.VARNAM_TOKEN_SYMBOL
  · rw [if_pos hty] at h
    by_cases hi : i = 0
    · rw [if_pos hi] at h
      injection h with h
      subst h
      subst hi
      rw [commit_zero]
      exact Or.inl rfl
    · rw [if_neg hi] at h
      cases hrec : extendResults v t.token st.results with
      | none => rw [hrec] at h; cases h
      | some ufa =>
        obtain ⟨u, a, f⟩ := ufa
        rw [hrec] at h
        injection h with h
        subst h
        unfold commit
        split
        · exact Or.inr ⟨t.token, st.results, u, a, f, hrec, rfl⟩
        · exact Or.inl rfl
  · rw [if_neg hty] at h
    injection h with h
    subst h
    unfold commit
    split
    · rename_i hcond
      exact absurd rfl hcond.2
    · exact Or.inl rfl

/-- The found set after the whole loop is either the initial one or the
found words of some `j`-loop pass. -/
theorem runTokens_found {v : Varnam} :
    ∀ {ts : List Token} {i : Nat} {st st' : MatchState},
      runTokens v i st ts = some st' →
      st'.foundDictWords = st.foundDictWords ∨
        ∃ toks rs u a f, extendResults v toks rs = some (u, a, f) ∧
          st'.foundDictWords = f := by
  intro ts
  induction ts with
  | nil =>
    intro i st st' h
    injection h with h
    subst h
    exact Or.inl rfl
  | cons t rest ih =>
    intro i st st' h
    rw [runTokens] at h
    cases hstep : step v i t st with
    | none => rw [hstep] at h; cases h
    | some st1 =>
      rw [hstep] at h
      rcases ih h with h1 | h1
      · rcases step_found hstep with h2 | h2
        · exact Or.inl (h1.trans h2)
        · obtain ⟨toks, rs, u, a, f, hrec, hf⟩ := h2
          exact Or.inr ⟨toks, rs, u, a, f, hrec, h1.trans hf⟩
      · exact Or.inr h1

/-- C1.  The dead-branch discipline of the matcher, for every store and
every token sequence.  Over one `j`-loop pass (`extendResults`):
(1) in-flight indices are stable — as many updated entries come out as
went in, appends go at the end; (2) a dead entry (sentinel weight `-1`)
passes through unchanged at its own index, neither extended nor searched;
(3) a live entry whose first-possibility extension has an empty exact
lookup is marked dead in place with the sentinel weight `-1`; (4) every
found word of the pass is the top hit of a possibility extending an entry
that was live at the start of the pass — none is built from a dead
branch; (5) every possibility of every live entry whose extension has a
non-empty exact lookup contributes its top hit — siblings at the position
where a branch dies are still returned.  Over the whole run: (6) an entry
dead in some intermediate state is still there, unchanged, at the end;
(7) every suggestion of the returned `DictionaryResult` is a found word
of some `j`-loop pass, hence by (4) derived from a live branch. -/
theorem dead_branch_pruning :
    ∀ v : Varnam,
    (∀ (toks : List Symbol) (rs u a f : List Suggestion),
      extendResults v toks rs = some (u, a, f) →
      (u.length = rs.length)
      ∧ (∀ (j : Nat) (r : Suggestion), rs[j]? = some r → r.Weight = -1 →
          u[j]? = some r)
      ∧ (∀ (j : Nat) (r : Suggestion) (ft : Symbol) (others : List Symbol),
          rs[j]? = some r → ¬r.Weight = -1 → toks = ft :: others →
          searchExact v (r.Word ++ ft.value1) = [] →
          u[j]? = some ⟨r.Word ++ ft.value1, -1, r.LearnedOn⟩)
      ∧ (∀ s ∈ f, ∃ r, r ∈ rs ∧ ¬r.Weight = -1 ∧
          ∃ p, p ∈ toks ∧ ∃ tl, searchExact v (r.Word ++ p.value1) = s :: tl)
      ∧ (∀ (r : Suggestion), r ∈ rs → ¬r.Weight = -1 →
          ∀ (p : Symbol) (s : Suggestion) (tl : List Suggestion), p ∈ toks →
          searchExact v (r.Word ++ p.value1) = s :: tl → s ∈ f))
    ∧ (∀ (ts : List Token) (i : Nat) (st st' : MatchState) (j : Nat) (r : Suggestion),
        runTokens v i st ts = some st' → st.results[j]? = some r → r.Weight = -1 →
        st'.results[j]? = some r)
    ∧ (∀ (ts : List Token) (res : DictionaryResult) (s : Suggestion),
        getFromDictionary v ts = some res → s ∈ res.sugs →
        ∃ (toks : List Symbol) (rs u a f : List Suggestion),
          extendResults v toks rs = some (u, a, f) ∧ s ∈ f) := by
  intro v
  refine ⟨?_, ?_, ?_⟩
  · intro toks rs u a f h
    exact ⟨extendResults_length h,
      fun j r hj hw => extendResults_dead h hj hw,
      fun j r ft others hj hw htoks hse => extendResults_mark_dead h hj hw htoks hse,
      fun s hs => extendResults_found h hs,
      fun r hr hlive p s tl hp hse => extendResults_sibling h hr hlive hp hse⟩
  · intro ts i st st' j r h hj hw
    exact runTokens_dead h hj hw
  · intro ts res s hres hs
    unfold getFromDictionary at hres
    cases hlast : ts.getLast? with
    | none => rw [hlast] at hres; cases hres
    | some lastToken =>
      rw [hlast] at hres
      cases hrun : runTokens v 0 ⟨[], 0, []⟩ ts with
      | none => rw [hrun] at hres; cases hres
      | some st =>
        rw [hrun] at hres
        injection hres with hres
        subst hres
        rcases runTokens_found hrun with h1 | h1
        · rw [h1] at hs
          cases hs
        · obtain ⟨toks, rs, u, a, f, hrec, hf⟩ := h1
          rw [hf] at hs
          exact ⟨toks, rs, u, a, f, hrec, hs⟩

/-- C1 witness: a concrete `j`-loop pass over the store `vLearntAB` with
two in-flight entries, the live "a" (extended to the hit "ab") and a dead
entry "z" that passes through unchanged at index 1. -/
theorem dead_branch_pruning_witness :
    extendResults vLearntAB [⟨['b']⟩] [⟨['a'], 0, 0⟩, ⟨['z'], -1, 0⟩] =
      some ([⟨['a', 'b'], 0, 0⟩, ⟨['z'], -1, 0⟩], [], [⟨['a', 'b'], 1, 5⟩])
    ∧ ([Suggestion.mk ['a', 'b'] 0 0, ⟨['z'], -1, 0⟩] :
        List Suggestion)[1]? = some ⟨['z'], -1, 0⟩ :=
  ⟨rfl,
    ((dead_branch_pruning vLearntAB).1 [⟨['b']⟩] [⟨['a'], 0, 0⟩, ⟨['z'], -1, 0⟩]
        [⟨['a', 'b'], 0, 0⟩, ⟨['z'], -1, 0⟩] [] [⟨['a', 'b'], 1, 5⟩] rfl).2.1
      1 ⟨['z'], -1, 0⟩ rfl rfl⟩

end Govarnam
